import Mathlib

/-!
Verification of the skylark/skyplane parallel-transfer helpers.

This file gives a shallow embedding, in Lean, of the functions of
`skylark/utils/utils.py` and `skylark/cli/cli_helper.py` that the
specification talks about, and proves (or refutes) the spec's claims
about them.  Python strings are modelled as `List Char`, Python integers
and file sizes as `Nat`, raised exceptions as explicit error values, and
the nondeterminism of thread scheduling as an explicit completion-order
parameter (for the functional view) or an event-trace validity relation
(for the temporal view).
-/

namespace Skylark

/-! ## `do_parallel` (skylark/utils/utils.py, lines 48-72), functional view

`do_parallel(func, args_list, n, ...)` copies `args_list` to a list,
returns `[]` immediately on the empty list (before creating the progress
bar or the thread pool), otherwise sets `n := len(args_list)` when
`n == -1`, submits `wrapped_fn(args) = (args, func(args))` for every
element to a `ThreadPoolExecutor(max_workers=n)` and collects
`future.result()` in *completion* order via `as_completed`.

A raising `func` is modelled as `func : α → Except ε β`.  The completion
order of the futures is an explicit parameter `co` (a permutation of
`args_list`).  Every submitted future is executed by the pool — the
`with` block shuts the pool down with `wait=True` and nothing ever
cancels queued work — so the list of executed invocations is `co`
itself, whether or not some invocation fails.  The collection loop calls
`future.result()`, which re-raises the first error in completion order;
the partial `results` list is local to `do_parallel` and is lost when
that exception propagates. -/

/-- Result of one `do_parallel` call: whether the pool/progress bar was
created, the `max_workers` value passed to the pool, the invocations the
pool actually executed (in completion order), and what the caller sees —
`.ok` pairs or the first raised error. -/
structure DoParallelRun (ε α β : Type) where
  poolTouched : Bool
  maxWorkers : Int
  executed : List α
  outcome : Except ε (List (α × β))

/-- The `for future in as_completed(...)` loop: walk the futures in
completion order, collecting `(args, result)` pairs; `future.result()`
re-raises the first error encountered. -/
def collectResults (func : α → Except ε β) : List α → Except ε (List (α × β))
  | [] => .ok []
  | a :: rest =>
    match func a with
    | .error e => .error e
    | .ok b =>
      match collectResults func rest with
      | .error e => .error e
      | .ok l => .ok ((a, b) :: l)

/-- Shallow embedding of `do_parallel` (utils.py lines 48-72).  `co` is
the completion order chosen by the scheduler, a permutation of
`args_list` in any run. -/
def do_parallel (func : α → Except ε β) (args_list : List α) (n : Int)
    (co : List α) : DoParallelRun ε α β :=
  if args_list.isEmpty then
    ⟨false, 0, [], .ok []⟩
  else
    ⟨true, if n = -1 then (args_list.length : Int) else n, co,
      collectResults func co⟩

/-! ## `parse_path` (skylark/cli/cli_helper.py, lines 19-46)

Python strings are modelled as `List Char`.  The filesystem-existence
checks made by `is_plausible_local_path` (`path.exists()`,
`path.is_dir()`, `path.parent.exists()`) are read-only external calls,
modelled as three boolean oracles. -/

/-- The three read-only filesystem checks used by
`is_plausible_local_path`. -/
structure FsView where
  pathIsThere : List Char → Bool
  pathIsDir : List Char → Bool
  parentIsThere : List Char → Bool

/-- `is_plausible_local_path` (cli_helper.py lines 19-27): true iff the
path exists, or is a directory, or its parent exists. -/
def is_plausible_local_path (fs : FsView) (path : List Char) : Bool :=
  if fs.pathIsThere path then true
  else if fs.pathIsDir path then true
  else if fs.parentIsThere path then true
  else false

/-- Python `s.split("/", 1)` destructured into two names: `some (a, b)`
when `s` contains a `'/'` (split at the first one), `none` when it does
not — in which case the two-name unpacking raises `ValueError`. -/
def splitOnce : List Char → Option (List Char × List Char)
  | [] => none
  | c :: rest =>
    if c = '/' then some ([], rest)
    else (splitOnce rest).map (fun p => (c :: p.1, p.2))

/-- One linear pass of the regex skeleton `.blob.core.windows.net`
(each `.` is an unescaped wildcard matching any character except a
newline): consume exactly the pattern, returning the remainder. -/
def matchDotPattern : List Char → List Char → Option (List Char)
  | [], rest => some rest
  | _ :: _, [] => none
  | p :: ps, c :: cs =>
    if p = '.' then (if c = '\n' then none else matchDotPattern ps cs)
    else if p = c then matchDotPattern ps cs
    else none

/-- The literal pattern between group 1 and the container part of the
Azure regex `https?://([^/]+).blob.core.windows.net/([^/]+)/(.*)`. -/
def azureHostPattern : List Char := ".blob.core.windows.net".toList

/-- One attempt of the Azure regex with group 1 bound to the first
`i` characters of `rest`: group 1 must be nonempty and slash-free, then
the host pattern, then `/`, then a nonempty slash-free container name,
then `/`, then the blob path (`(.*)` stops at a newline; `re.match`
does not anchor the end). -/
def azureAttempt (i : Nat) (rest : List Char) :
    Option (List Char × List Char × List Char) :=
  let g1 := rest.take i
  if i = 0 then none
  else if g1.contains '/' then none
  else
    match matchDotPattern azureHostPattern (rest.drop i) with
    | none => none
    | some rem =>
      match rem with
      | '/' :: rem2 =>
        match splitOnce rem2 with
        | some (g2, g3raw) =>
          if g2.isEmpty then none
          else some (g1, g2, g3raw.takeWhile (fun c => c ≠ '\n'))
        | none => none
      | _ => none

/-- Greedy backtracking for group 1 of the Azure regex: try the longest
candidate first, shrinking on failure, exactly as Python's backtracking
regex engine resolves `([^/]+)` followed by wildcards. -/
def azureSearch : Nat → List Char → Option (List Char × List Char × List Char)
  | 0, _ => none
  | i + 1, rest =>
    match azureAttempt (i + 1) rest with
    | some r => some r
    | none => azureSearch i rest

/-- `re.match` of the Azure regex against the whole path (the scheme
part `https?://` followed by the three groups). -/
def azureMatch (path : List Char) :
    Option (List Char × List Char × List Char) :=
  if "https://".toList.isPrefixOf path then
    azureSearch (path.length) (path.drop 8)
  else if "http://".toList.isPrefixOf path then
    azureSearch (path.length) (path.drop 7)
  else none

/-- Python's substring test `needle in hay`. -/
def hasSubstring (hay needle : List Char) : Bool :=
  match hay with
  | [] => needle.isEmpty
  | _ :: t => needle.isPrefixOf hay || hasSubstring t needle

/-- The value `parse_path` hands back: the per-branch tuple shapes of
the Python function, as one sum type.  `raw` is the bare `return path`
fall-through reached when the string is neither a recognized remote URI
nor a plausible local path. -/
inductive ParsedPath where
  | s3 (bucket key : List Char)
  | gs (bucket key : List Char)
  | azure (account container blobPath : List Char)
  | localPath (path : List Char)
  | raw (path : List Char)
  deriving Repr, DecidableEq

/-- The exceptions `parse_path` can raise: the `ValueError` from
unpacking a one-element `split` result (the spec's `InvalidPathError`
for a missing separator) and the explicit
`ValueError(f"Invalid Azure path: ...")`. -/
inductive ParseErr where
  | unpackValueError
  | invalidAzurePath (path : List Char)
  deriving Repr, DecidableEq

/-- `parse_path` (cli_helper.py lines 30-46). -/
def parse_path (fs : FsView) (path : List Char) : Except ParseErr ParsedPath :=
  if "s3://".toList.isPrefixOf path then
    match splitOnce (path.drop 5) with
    | some (bucket, key) => .ok (.s3 bucket key)
    | none => .error .unpackValueError
  else if "gs://".toList.isPrefixOf path then
    match splitOnce (path.drop 5) with
    | some (bucket, key) => .ok (.gs bucket key)
    | none => .error .unpackValueError
  else if ("https://".toList.isPrefixOf path ||
      "http://".toList.isPrefixOf path) &&
      hasSubstring path "blob.core.windows.net".toList then
    match azureMatch path with
    | some (account, container, blobPath) =>
      .ok (.azure account container blobPath)
    | none => .error (.invalidAzurePath path)
  else if is_plausible_local_path fs path then
    .ok (.localPath path)
  else
    .ok (.raw path)

/-! ## Local filesystem model

A path is a list of components (each a Python string, i.e. `List Char`);
`[]` is the filesystem root, which always exists as a directory.  The
filesystem is an association list from absolute paths to entries; a
file's content is abstracted to a `Nat` so that `copyfile` is
observable. -/

/-- An absolute path, as its list of components. -/
abbrev FPath := List (List Char)

/-- A filesystem entry: a regular file (content abstracted) or a
directory. -/
inductive FEntry where
  | efile (content : Nat)
  | edir
  deriving Repr, DecidableEq

/-- A filesystem: an association list from paths to entries. -/
abbrev Fs := List (FPath × FEntry)

/-- The errors the filesystem helpers can raise (`FileNotFoundError`,
`FileExistsError`, `NotADirectoryError`, `IsADirectoryError`, and
Python's `RecursionError` when the interpreter's recursion limit is
exhausted). -/
inductive CpErr where
  | fileNotFound (p : FPath)
  | fileExists (p : FPath)
  | notADirectory (p : FPath)
  | isADirectory (p : FPath)
  | recursionError
  deriving Repr, DecidableEq

/-- Look a path up; the root `[]` always exists as a directory. -/
def fsGet (fs : Fs) (p : FPath) : Option FEntry :=
  if p = [] then some .edir
  else (fs.find? (fun e => e.1 == p)).map Prod.snd

/-- `Path.exists()`. -/
def pathExistsF (fs : Fs) (p : FPath) : Bool :=
  (fsGet fs p).isSome

/-- `Path.is_dir()`. -/
def isDirF (fs : Fs) (p : FPath) : Bool :=
  fsGet fs p == some .edir

/-- Create or overwrite the entry at `p`. -/
def fsSet (fs : Fs) (p : FPath) (e : FEntry) : Fs :=
  if (fs.find? (fun kv => kv.1 == p)).isSome then
    fs.map (fun kv => if kv.1 == p then (p, e) else kv)
  else fs ++ [(p, e)]

/-- `Path.iterdir()`: the names of the direct children of `p`, in
filesystem order. -/
def childNames (fs : Fs) (p : FPath) : List (List Char) :=
  fs.filterMap (fun e =>
    if e.1.dropLast == p && e.1.length == p.length + 1 then e.1.getLast?
    else none)

/-- `dst.mkdir(exist_ok=True)` (no `parents`): ok if `p` is already a
directory, `FileExistsError` if it is a file, otherwise create it,
requiring the parent to be an existing directory. -/
def mkdirOneOp (p : FPath) (fs : Fs) : Fs × Option CpErr :=
  match fsGet fs p with
  | some .edir => (fs, none)
  | some (.efile _) => (fs, some (.fileExists p))
  | none =>
    match fsGet fs p.dropLast with
    | some .edir => (fs ++ [(p, .edir)], none)
    | some (.efile _) => (fs, some (.notADirectory p.dropLast))
    | none => (fs, some (.fileNotFound p.dropLast))

/-- `dst.parent.mkdir(exist_ok=True, parents=True)`: create every
missing ancestor top-down, tolerating existing directories; a conflict
with an existing file raises, leaving the ancestors created so far in
place. -/
def mkdirPGo (fs : Fs) (cur : FPath) : List (List Char) → Fs × Option CpErr
  | [] => (fs, none)
  | n :: ns =>
    match fsGet fs (cur ++ [n]) with
    | some .edir => mkdirPGo fs (cur ++ [n]) ns
    | some (.efile _) => (fs, some (.fileExists (cur ++ [n])))
    | none => mkdirPGo (fs ++ [(cur ++ [n], .edir)]) (cur ++ [n]) ns

/-- The whole call `p.mkdir(exist_ok=True, parents=True)`:
walk the components from the root. -/
def mkdirParentsOp (p : FPath) (fs : Fs) : Fs × Option CpErr :=
  mkdirPGo fs [] p

/-- `shutil.copyfile(src, dst)`: read a regular file at `src`, write
its content to `dst` (the destination's parent must be an existing
directory, and `dst` must not be a directory). -/
def copyfileOp (src dst : FPath) (fs : Fs) : Fs × Option CpErr :=
  match fsGet fs src with
  | none => (fs, some (.fileNotFound src))
  | some .edir => (fs, some (.isADirectory src))
  | some (.efile c) =>
    match fsGet fs dst with
    | some .edir => (fs, some (.isADirectory dst))
    | _ =>
      match fsGet fs dst.dropLast with
      | some .edir => (fsSet fs dst (.efile c), none)
      | _ => (fs, some (.fileNotFound dst))

/-- The primitive mutating filesystem operations `copy_local_local`
performs, in program order. -/
inductive CpEv where
  | mkdirOne (p : FPath)
  | mkdirWithParents (p : FPath)
  | copyFileEv (src dst : FPath)
  deriving Repr, DecidableEq

/-- Replay one emitted event (its state effect, errors dropped). -/
def applyEv (fs : Fs) : CpEv → Fs
  | .mkdirOne p => (mkdirOneOp p fs).1
  | .mkdirWithParents p => (mkdirParentsOp p fs).1
  | .copyFileEv s d => (copyfileOp s d fs).1

/-- Scan a trace: every `copyfile` must happen in a state where the
destination's parent is an existing directory. -/
def parentOkTrace (fs : Fs) : List CpEv → Bool
  | [] => true
  | ev :: rest =>
    (match ev with
     | .copyFileEv _ d => isDirF fs d.dropLast
     | _ => true) && parentOkTrace (applyEv fs ev) rest

/-- Outcome of one `copy_local_local` call: the filesystem after the
call (mutations before a raise are kept), the primitive operations
attempted in order, and the first exception if one was raised. -/
structure CopyRun where
  fs : Fs
  evs : List CpEv
  err : Option CpErr
  deriving Repr, DecidableEq

/-! `copy_local_local` (cli_helper.py lines 69-81): check that the
source exists and that the destination's parent exists, then for a
directory source `mkdir(exist_ok=True)` the destination and recurse
over the children; for a file source create the destination's parents
and `copyfile`.  Python's recursion limit is modelled by `fuel`
(exhaustion raises `RecursionError`). -/

/-- The `for child in src.iterdir()` loop of `copy_local_local`: copy
each child in order with the recursive call `rec`, stopping at the
first exception. -/
def goChildren (rec : FPath → FPath → Fs → CopyRun) (src dst : FPath) :
    List (List Char) → Fs → CopyRun
  | [], fs => ⟨fs, [], none⟩
  | name :: names, fs =>
    let r := rec (src ++ [name]) (dst ++ [name]) fs
    match r.err with
    | some e => ⟨r.fs, r.evs, some e⟩
    | none =>
      let rs := goChildren rec src dst names r.fs
      ⟨rs.fs, r.evs ++ rs.evs, rs.err⟩

/-- `copy_local_local` (cli_helper.py lines 69-81). -/
def copy_local_local : Nat → FPath → FPath → Fs → CopyRun
  | 0, _, _, fs => ⟨fs, [], some .recursionError⟩
  | Nat.succ fuel, src, dst, fs =>
    if pathExistsF fs src = false then
      ⟨fs, [], some (.fileNotFound src)⟩
    else if pathExistsF fs dst.dropLast = false then
      ⟨fs, [], some (.fileNotFound dst.dropLast)⟩
    else if isDirF fs src then
      let m := mkdirOneOp dst fs
      match m.2 with
      | some e => ⟨m.1, [.mkdirOne dst], some e⟩
      | none =>
        let r := goChildren (fun s d f => copy_local_local fuel s d f)
          src dst (childNames fs src) m.1
        ⟨r.fs, .mkdirOne dst :: r.evs, r.err⟩
    else
      let m := mkdirParentsOp dst.dropLast fs
      match m.2 with
      | some e => ⟨m.1, [.mkdirWithParents dst.dropLast], some e⟩
      | none =>
        let c := copyfileOp src dst m.1
        ⟨c.1, [.mkdirWithParents dst.dropLast, .copyFileEv src dst], c.2⟩

/-- `ls_local` (cli_helper.py lines 50-57): `FileNotFoundError` on a
missing path, child names for a directory, the path's own name for a
file. -/
def ls_local (fs : Fs) (p : FPath) : Except CpErr (List (List Char)) :=
  if pathExistsF fs p = false then .error (.fileNotFound p)
  else if isDirF fs p then .ok (childNames fs p)
  else .ok [p.getLastD []]

/-! ## Enumeration of a local tree for upload (C3, C5)

`copy_local_s3` (cli_helper.py lines 84-106) walks the source tree with
the inner `_copy`, which for a file immediately dispatches
`s3.upload_object` and returns `path.stat().st_size`, and for a
directory sums the recursive calls.  Only after the walk returns is
`total_bytes` bound; the progress loop then awaits the dispatched
futures in completion order. -/

/-- A source tree as found on disk: regular files carry their on-disk
size in bytes. -/
inductive FsTree where
  | file (name : List Char) (size : Nat)
  | dir (name : List Char) (children : List FsTree)
  deriving Repr

/-- The name component of a tree node (`path.name`). -/
def FsTree.nodeName : FsTree → List Char
  | .file n _ => n
  | .dir n _ => n

mutual

/-- The sum of the on-disk sizes of all regular files under a tree. -/
def treeSize : FsTree → Nat
  | .file _ sz => sz
  | .dir _ cs => forestSize cs

/-- `treeSize` summed over a list of sibling trees. -/
def forestSize : List FsTree → Nat
  | [] => 0
  | t :: ts => treeSize t + forestSize ts

end

/-- `os.path.join(a, b)` for POSIX paths. -/
def osPathJoin (a b : List Char) : List Char :=
  match b with
  | '/' :: _ => b
  | _ =>
    if a = [] then b
    else if a.getLast? = some '/' then a ++ b
    else a ++ '/' :: b

mutual

/-- The `_copy` walk of `copy_local_s3`: produce the `(key, size)`
upload dispatches in program order together with the returned byte
total. -/
def copyWalk : FsTree → List Char → List (List Char × Nat) × Nat
  | .file _ sz, key => ([(key, sz)], sz)
  | .dir _ cs, key => copyWalkList cs key

/-- The `for child in path.iterdir()` loop of `_copy`: children in
order, dispatches concatenated and sizes summed. -/
def copyWalkList : List FsTree → List Char → List (List Char × Nat) × Nat
  | [], _ => ([], 0)
  | t :: ts, key =>
    let r := copyWalk t (osPathJoin key t.nodeName)
    let rs := copyWalkList ts key
    (r.1 ++ rs.1, r.2 + rs.2)

end

/-- The observable events of one `copy_local_s3` call: an
`upload_object` dispatch, the binding of `total_bytes` after the walk
returns, and one completed-future wait in the progress loop. -/
inductive S3Ev where
  | upload (key : List Char) (size : Nat)
  | totalComputed (total : Nat)
  | awaitOp (key : List Char) (size : Nat)
  deriving Repr, DecidableEq

/-- `copy_local_s3` (cli_helper.py lines 84-106) as its event trace
plus the computed total; `co` is the completion order in which the
progress loop's `as_completed` yields the dispatched uploads. -/
def copy_local_s3 (src : FsTree) (dstKey : List Char)
    (co : List (List Char × Nat)) : List S3Ev × Nat :=
  let r := copyWalk src dstKey
  (r.1.map (fun u => .upload u.1 u.2) ++ [.totalComputed r.2] ++
    co.map (fun u => .awaitOp u.1 u.2), r.2)

/-- True iff no upload is dispatched before the total is computed. -/
def noUploadBeforeTotal : List S3Ev → Bool
  | [] => true
  | .totalComputed _ :: _ => true
  | .upload _ _ :: _ => false
  | .awaitOp _ _ :: rest => noUploadBeforeTotal rest

/-! ## `copy_s3_local` (cli_helper.py lines 109-133)

The listing returned by `s3.list_objects(prefix=src_key)` is the input;
each object carries a key and a size.  For each listed object the code
strips the prefix by length, strips leading `/`, creates the
destination's parent directories, dispatches `download_object` and adds
the object's size to `total_bytes`. -/

/-- One listed remote object. -/
structure RemoteObj where
  key : List Char
  size : Nat
  deriving Repr, DecidableEq

/-- `sub_key.lstrip("/")`. -/
def stripLeadingSlashes (l : List Char) : List Char :=
  l.dropWhile (fun c => c = '/')

/-- `dst / sub_key`: split the relative key on `/` into path
components, dropping empty segments as `pathlib` does. -/
def pathComponents (l : List Char) : List (List Char) :=
  (l.splitOn '/').filter (fun c => c ≠ [])

/-- Outcome of one `copy_s3_local` call: the filesystem after the
per-object `mkdir` calls, the dispatched `(object, destination)`
downloads in order, the accumulated `total_bytes`, and the first
exception if one was raised. -/
structure S3LocalRun where
  fs : Fs
  dispatches : List (RemoteObj × FPath)
  total : Nat
  err : Option CpErr
  deriving Repr, DecidableEq

/-- `copy_s3_local` (cli_helper.py lines 109-133), enumeration phase:
the `for obj in s3.list_objects(...)` loop. -/
def copy_s3_local (objs : List RemoteObj) (srcKey : List Char)
    (dst : FPath) (fs : Fs) : S3LocalRun :=
  match objs with
  | [] => ⟨fs, [], 0, none⟩
  | obj :: rest =>
    let subKey := stripLeadingSlashes (obj.key.drop srcKey.length)
    let destPath := dst ++ pathComponents subKey
    let m := mkdirParentsOp destPath.dropLast fs
    match m.2 with
    | some e => ⟨m.1, [], 0, some e⟩
    | none =>
      let r := copy_s3_local rest srcKey dst m.1
      ⟨r.fs, (obj, destPath) :: r.dispatches, obj.size + r.total, r.err⟩

/-! ## `do_parallel`, temporal view (C4)

The thread-pool execution of `do_parallel` as an event system.  Items
are indexed `0, ..., numItems - 1` in input order.  `submit i` is
`executor.submit(wrapped_fn, args)` in the list comprehension (line
66): submissions happen in input order, all before the collection loop
runs, hence before any `observe`.  `start i` is a pool worker picking
item `i` off the FIFO work queue and beginning `func(args)`; at most
`maxWorkers` items run at once, and queued work is started in
submission order.  `finish i` is the worker completing item `i`
(success or exception captured in the future).  `observe i` is one
iteration of `for future in as_completed(...)`: futures are yielded in
completion order, and the loop body stops running after
`future.result()` re-raises the first failure (`fails i = true`) —
but nothing cancels queued work: `start` is never guarded by what has
been observed. -/

/-- A `do_parallel` pool configuration: item count, `max_workers`, and
which items' invocations raise. -/
structure PoolCfg where
  numItems : Nat
  maxWorkers : Nat
  fails : Nat → Bool

/-- One scheduling event of the pool execution. -/
inductive PEvent where
  | submit (i : Nat)
  | start (i : Nat)
  | finish (i : Nat)
  | observe (i : Nat)
  deriving Repr, DecidableEq

/-- The pool state: how many items are submitted, how many have been
started (the FIFO queue means the started items are exactly
`0, ..., started - 1`), the finished items in completion order, and the
futures observed so far by the collection loop. -/
structure PoolState where
  submitted : Nat
  started : Nat
  finished : List Nat
  observed : List Nat
  deriving Repr, DecidableEq

/-- The pool state before anything happens. -/
def initPool : PoolState := ⟨0, 0, [], []⟩

/-- One step of the pool execution: `none` when the event cannot occur
in the given state. -/
def poolStep (cfg : PoolCfg) (st : PoolState) : PEvent → Option PoolState
  | .submit i =>
    if i = st.submitted ∧ i < cfg.numItems then
      some ⟨i + 1, st.started, st.finished, st.observed⟩
    else none
  | .start i =>
    if i = st.started ∧ i < st.submitted ∧
        st.started - st.finished.length < cfg.maxWorkers then
      some ⟨st.submitted, i + 1, st.finished, st.observed⟩
    else none
  | .finish i =>
    if i < st.started ∧ i ∉ st.finished then
      some ⟨st.submitted, st.started, st.finished ++ [i], st.observed⟩
    else none
  | .observe i =>
    if st.submitted = cfg.numItems ∧
        st.finished.get? st.observed.length = some i ∧
        (∀ j ∈ st.observed, cfg.fails j = false) then
      some ⟨st.submitted, st.started, st.finished, st.observed ++ [i]⟩
    else none

/-- Run a candidate event trace from a state; `none` if some event is
impossible where it occurs (the trace is not a real execution). -/
def runPool (cfg : PoolCfg) (st : PoolState) : List PEvent → Option PoolState
  | [] => some st
  | ev :: rest => (poolStep cfg st ev).bind (fun st' => runPool cfg st' rest)

/-- `start s; finish s; start (s+1); finish (s+1); ...`: `k` remaining
items dispatched and completed one after the other. -/
def pairSF : Nat → Nat → List PEvent
  | _, 0 => []
  | s, k + 1 => .start s :: .finish s :: pairSF (s + 1) k

/-- The state invariant of pool executions. -/
def PoolInv (cfg : PoolCfg) (st : PoolState) : Prop :=
  st.finished.Nodup ∧ (∀ i ∈ st.finished, i < st.started) ∧
  st.started ≤ st.submitted ∧ st.submitted ≤ cfg.numItems

/-! ## Helper lemmas and claim theorems -/

theorem collectResults_all_ok (func : α → Except ε β) :
    ∀ co : List α, (∀ a ∈ co, (func a).isOk) →
      ∃ res, collectResults func co = .ok res ∧
        res.map Prod.fst = co ∧ ∀ p ∈ res, func p.1 = .ok p.2 := by
  intro co
  induction co with
  | nil => intro _; exact ⟨[], rfl, rfl, by simp⟩
  | cons a rest ih =>
    intro h
    have ha := h a (by simp)
    obtain ⟨b, hb⟩ : ∃ b, func a = .ok b := by
      cases hfa : func a with
      | error e => rw [hfa] at ha; simp [Except.isOk, Except.toBool] at ha
      | ok b => exact ⟨b, rfl⟩
    obtain ⟨res, hres, hfst, hok⟩ := ih (fun x hx => h x (by simp [hx]))
    refine ⟨(a, b) :: res, ?_, ?_, ?_⟩
    · simp only [collectResults, hb, hres]
    · simp [hfst]
    · intro p hp
      rcases List.mem_cons.mp hp with h1 | h2
      · subst h1; exact hb
      · exact hok p h2

theorem collectResults_first_error (func : α → Except ε β) :
    ∀ co : List α, (∃ a ∈ co, ¬ (func a).isOk) →
      ∃ pre a post e, co = pre ++ a :: post ∧
        (∀ b ∈ pre, (func b).isOk) ∧ func a = .error e ∧
        collectResults func co = .error e := by
  intro co
  induction co with
  | nil => rintro ⟨a, ha, _⟩; simp at ha
  | cons c rest ih =>
    rintro ⟨a, ha, hfail⟩
    cases hfc : func c with
    | error e =>
      exact ⟨[], c, rest, e, rfl, by simp, hfc, by simp [collectResults, hfc]⟩
    | ok b =>
      have hrest : ∃ a ∈ rest, ¬ (func a).isOk := by
        rcases List.mem_cons.mp ha with h1 | h2
        · subst h1; rw [hfc] at hfail
          simp [Except.isOk, Except.toBool] at hfail
        · exact ⟨a, h2, hfail⟩
      obtain ⟨pre, a', post, e, hco, hpre, ha', hcoll⟩ := ih hrest
      refine ⟨c :: pre, a', post, e, by simp [hco], ?_, ha', ?_⟩
      · intro x hx
        rcases List.mem_cons.mp hx with h1 | h2
        · subst h1; simp [hfc, Except.isOk, Except.toBool]
        · exact hpre x h2
      · simp only [collectResults, hfc, hcoll]

/-- Claim C1: for every item sequence of length N and every concurrency
width C with 1 ≤ C ≤ N (and by default C = N when n = -1), if no
invocation of fn raises, `do_parallel` returns exactly N (item, result)
pairs in which each input item appears exactly once and each pair's
result equals fn applied to that pair's item; for the empty item
sequence it returns the empty sequence without touching the worker
pool. -/
theorem do_parallel_ok_results (func : α → Except ε β)
    (args_list co : List α) (n : Int) (hco : co.Perm args_list)
    (hn : n = -1 ∨ (1 ≤ n ∧ n ≤ (args_list.length : Int)))
    (hok : ∀ a ∈ args_list, (func a).isOk) :
    ∃ res, (do_parallel func args_list n co).outcome = .ok res ∧
      res.length = args_list.length ∧
      (res.map Prod.fst).Perm args_list ∧
      (∀ p ∈ res, func p.1 = .ok p.2) ∧
      (args_list = [] →
        (do_parallel func args_list n co).poolTouched = false ∧ res = []) ∧
      (args_list ≠ [] → (do_parallel func args_list n co).maxWorkers =
        if n = -1 then (args_list.length : Int) else n) := by
  rcases heq : args_list with _ | ⟨x, xs⟩
  · have hconil : co = [] := by
      have := hco
      rw [heq] at this
      exact List.Perm.eq_nil this
    subst hconil
    refine ⟨[], ?_, by simp, by simp, by simp, fun _ => ⟨?_, rfl⟩, fun h => absurd rfl h⟩
    · simp [do_parallel]
    · simp [do_parallel]
  · rw [← heq]
    have hne : args_list.isEmpty = false := by rw [heq]; rfl
    obtain ⟨res, hres, hfst, hok2⟩ :=
      collectResults_all_ok func co
        (fun a ha => hok a ((hco.mem_iff).mp ha))
    refine ⟨res, ?_, ?_, ?_, hok2, ?_, ?_⟩
    · simp [do_parallel, hne, hres]
    · have : res.length = co.length := by
        rw [← hfst]; exact (List.length_map _ _).symm
      rw [this, hco.length_eq]
    · rw [hfst]; exact hco
    · intro hnil; rw [heq] at hnil; exact absurd hnil (by simp)
    · intro _; simp [do_parallel, hne]

/-- Witness for claim C1 at the concrete input `[1, 2, 3]` with
completion order `[2, 1, 3]` and `n = -1`. -/
theorem do_parallel_ok_results_witness :
    ∃ res,
      (do_parallel (fun x : Nat => (Except.ok (x * 2) : Except String Nat))
        [1, 2, 3] (-1) [2, 1, 3]).outcome = .ok res ∧
      res.length = ([1, 2, 3] : List Nat).length ∧
      (res.map Prod.fst).Perm [1, 2, 3] ∧
      (∀ p ∈ res,
        (fun x : Nat => (Except.ok (x * 2) : Except String Nat)) p.1 =
          .ok p.2) ∧
      (([1, 2, 3] : List Nat) = [] →
        (do_parallel (fun x : Nat => (Except.ok (x * 2) : Except String Nat))
          [1, 2, 3] (-1) [2, 1, 3]).poolTouched = false ∧ res = []) ∧
      (([1, 2, 3] : List Nat) ≠ [] →
        (do_parallel (fun x : Nat => (Except.ok (x * 2) : Except String Nat))
          [1, 2, 3] (-1) [2, 1, 3]).maxWorkers =
          if (-1 : Int) = -1 then (([1, 2, 3] : List Nat).length : Int)
          else -1) :=
  do_parallel_ok_results _ _ _ _ (by decide) (Or.inl rfl) (by decide)

/-- Counterexample to claim C2 as stated: with items `[1, 2]`, a
function failing on `1` and completion order `[1, 2]`, both invocations
are executed (drain), yet the caller does not receive the results for
the other items — the call raises `"boom"` and the locally collected
`results` list is discarded, so the outcome carries no result pairs at
all even though item `2`'s invocation succeeded. -/
theorem do_parallel_error_discards_results_cex :
    (do_parallel
      (fun x : Nat => if x = 1 then (Except.error "boom" : Except String Nat)
        else .ok x) [1, 2] (-1) [1, 2]).executed = [1, 2] ∧
    ((fun x : Nat => if x = 1 then (Except.error "boom" : Except String Nat)
        else .ok x) 2 = .ok 2) ∧
    (do_parallel
      (fun x : Nat => if x = 1 then (Except.error "boom" : Except String Nat)
        else .ok x) [1, 2] (-1) [1, 2]).outcome = .error "boom" ∧
    ((do_parallel
      (fun x : Nat => if x = 1 then (Except.error "boom" : Except String Nat)
        else .ok x) [1, 2] (-1) [1, 2]).outcome.isOk = false) := by
  refine ⟨rfl, rfl, rfl, rfl⟩

/-- Claim C2, amended: when at least one invocation of fn raises,
`do_parallel` still executes every dispatched invocation (the pool is
drained: the executed list is exactly the completion order, a
permutation of the input items, so every non-failing item's fn runs),
and it surfaces the first error in completion order — but the results
collected for the other items are discarded, not returned to the
caller. -/
theorem do_parallel_drain_first_error (func : α → Except ε β)
    (args_list co : List α) (n : Int) (hco : co.Perm args_list)
    (hfail : ∃ a ∈ args_list, ¬ (func a).isOk) :
    (do_parallel func args_list n co).executed = co ∧
    (do_parallel func args_list n co).executed.Perm args_list ∧
    ∃ pre a post e, co = pre ++ a :: post ∧
      (∀ b ∈ pre, (func b).isOk) ∧ func a = .error e ∧
      (do_parallel func args_list n co).outcome = .error e := by
  obtain ⟨a0, ha0, hfa0⟩ := hfail
  have hne : args_list.isEmpty = false := by
    cases args_list with
    | nil => simp at ha0
    | cons x xs => rfl
  have hfailco : ∃ a ∈ co, ¬ (func a).isOk :=
    ⟨a0, (hco.mem_iff).mpr ha0, hfa0⟩
  obtain ⟨pre, a, post, e, hsplit, hpre, ha, hcoll⟩ :=
    collectResults_first_error func co hfailco
  refine ⟨?_, ?_, pre, a, post, e, hsplit, hpre, ha, ?_⟩
  · simp [do_parallel, hne]
  · simp [do_parallel, hne]; exact hco
  · simp [do_parallel, hne, hcoll]

/-- Witness for the amended claim C2 at items `[1, 2]`, completion
order `[2, 1]`, with the function failing on item `1`. -/
theorem do_parallel_drain_first_error_witness :
    (do_parallel
      (fun x : Nat => if x = 1 then (Except.error "boom" : Except String Nat)
        else .ok x) [1, 2] 2 [2, 1]).executed = [2, 1] ∧
    (do_parallel
      (fun x : Nat => if x = 1 then (Except.error "boom" : Except String Nat)
        else .ok x) [1, 2] 2 [2, 1]).executed.Perm [1, 2] ∧
    ∃ pre a post e, ([2, 1] : List Nat) = pre ++ a :: post ∧
      (∀ b ∈ pre,
        ((fun x : Nat =>
          if x = 1 then (Except.error "boom" : Except String Nat)
          else .ok x) b).isOk) ∧
      (fun x : Nat => if x = 1 then (Except.error "boom" : Except String Nat)
        else .ok x) a = .error e ∧
      (do_parallel
        (fun x : Nat =>
          if x = 1 then (Except.error "boom" : Except String Nat)
          else .ok x) [1, 2] 2 [2, 1]).outcome = .error e :=
  do_parallel_drain_first_error _ _ _ _ (by decide)
    ⟨1, by decide, by decide⟩

theorem isPrefixOf_cons_iff {a : Char} {as l : List Char} :
    List.isPrefixOf (a :: as) l = true ↔
      ∃ t, l = a :: t ∧ List.isPrefixOf as t = true := by
  cases l with
  | nil => simp [List.isPrefixOf]
  | cons b bs =>
    constructor
    · intro h
      simp only [List.isPrefixOf, Bool.and_eq_true, beq_iff_eq] at h
      exact ⟨bs, by rw [h.1], h.2⟩
    · rintro ⟨t, ht, hpre⟩
      cases ht
      simp [List.isPrefixOf, hpre]

theorem splitOnce_eq_none_of_no_slash :
    ∀ l : List Char, l.contains '/' = false → splitOnce l = none := by
  intro l
  induction l with
  | nil => intro _; rfl
  | cons c rest ih =>
    intro h
    simp only [List.contains_cons, Bool.or_eq_false_iff, beq_eq_false_iff_ne] at h
    have hc : ¬ (c = '/') := fun hc => h.1 hc.symm
    simp [splitOnce, hc, ih h.2]

theorem parentOkTrace_append (e1 : List CpEv) :
    ∀ (fs : Fs) (e2 : List CpEv),
      parentOkTrace fs (e1 ++ e2) =
        (parentOkTrace fs e1 &&
          parentOkTrace (e1.foldl applyEv fs) e2) := by
  induction e1 with
  | nil => intro fs e2; simp [parentOkTrace]
  | cons ev rest ih =>
    intro fs e2
    simp only [List.cons_append, parentOkTrace, List.foldl_cons,
      List.append_eq, ih, Bool.and_assoc]

theorem fsGet_append_last (fs : Fs) (q : FPath) (ent : FEntry)
    (hq : q ≠ []) (hnone : fsGet fs q = none) :
    fsGet (fs ++ [(q, ent)]) q = some ent := by
  induction fs with
  | nil =>
    simp only [fsGet, if_neg hq, List.nil_append, List.find?]
    simp
  | cons kv rest ih =>
    simp only [fsGet, if_neg hq] at hnone ⊢
    cases hkv : (kv.1 == q) with
    | true => simp [List.find?, hkv] at hnone
    | false =>
      simp only [List.cons_append, List.find?, hkv] at hnone ⊢
      have := ih (by simpa only [fsGet, if_neg hq] using hnone)
      simpa only [fsGet, if_neg hq] using this

theorem mkdirPGo_isDir :
    ∀ (ns : List (List Char)) (fs : Fs) (cur : FPath),
      isDirF fs cur = true → (mkdirPGo fs cur ns).2 = none →
      isDirF (mkdirPGo fs cur ns).1 (cur ++ ns) = true := by
  intro ns
  induction ns with
  | nil => intro fs cur hdir _; simpa using hdir
  | cons n rest ih =>
    intro fs cur hdir herr
    simp only [mkdirPGo] at herr ⊢
    cases hg : fsGet fs (cur ++ [n]) with
    | none =>
      simp only [hg] at herr ⊢
      have hne : cur ++ [n] ≠ [] := by simp
      have hnew : isDirF (fs ++ [(cur ++ [n], .edir)]) (cur ++ [n]) = true := by
        simp [isDirF, fsGet_append_last fs (cur ++ [n]) .edir hne hg]
      have := ih _ _ hnew herr
      simpa using this
    | some e =>
      cases e with
      | edir =>
        simp only [hg] at herr ⊢
        have hcur : isDirF fs (cur ++ [n]) = true := by simp [isDirF, hg]
        have := ih _ _ hcur herr
        simpa using this
      | efile c => simp [hg] at herr

theorem mkdirParentsOp_isDir (p : FPath) (fs : Fs)
    (herr : (mkdirParentsOp p fs).2 = none) :
    isDirF (mkdirParentsOp p fs).1 p = true := by
  have hroot : isDirF fs [] = true := by simp [isDirF, fsGet]
  have := mkdirPGo_isDir p fs [] hroot herr
  simpa [mkdirParentsOp] using this

theorem goChildren_replay (rec : FPath → FPath → Fs → CopyRun)
    (hrec : ∀ s d f, (rec s d f).fs = (rec s d f).evs.foldl applyEv f ∧
      ((rec s d f).err = none → parentOkTrace f (rec s d f).evs = true)) :
    ∀ (names : List (List Char)) (src dst : FPath) (fs : Fs),
      (goChildren rec src dst names fs).fs =
        (goChildren rec src dst names fs).evs.foldl applyEv fs ∧
      ((goChildren rec src dst names fs).err = none →
        parentOkTrace fs (goChildren rec src dst names fs).evs = true) := by
  intro names
  induction names with
  | nil => intro src dst fs; exact ⟨rfl, fun _ => rfl⟩
  | cons name rest ih =>
    intro src dst fs
    simp only [goChildren]
    cases herr : (rec (src ++ [name]) (dst ++ [name]) fs).err with
    | some e =>
      simp only [herr]
      exact ⟨(hrec _ _ _).1, by simp⟩
    | none =>
      simp only [herr]
      obtain ⟨hfs, hok⟩ := hrec (src ++ [name]) (dst ++ [name]) fs
      obtain ⟨hfs2, hok2⟩ :=
        ih src dst (rec (src ++ [name]) (dst ++ [name]) fs).fs
      refine ⟨?_, fun h => ?_⟩
      · rw [List.foldl_append, ← hfs, hfs2]
      · rw [parentOkTrace_append, hok herr, ← hfs, hok2 h]
        rfl

theorem copy_local_local_replay :
    ∀ (fuel : Nat) (src dst : FPath) (fs : Fs),
      (copy_local_local fuel src dst fs).fs =
        (copy_local_local fuel src dst fs).evs.foldl applyEv fs ∧
      ((copy_local_local fuel src dst fs).err = none →
        parentOkTrace fs (copy_local_local fuel src dst fs).evs = true) := by
  intro fuel
  induction fuel with
  | zero => intro src dst fs; exact ⟨rfl, by simp [copy_local_local]⟩
  | succ fuel ih =>
    intro src dst fs
    by_cases h1 : pathExistsF fs src = false
    · simp [copy_local_local, h1]
    · by_cases h2 : pathExistsF fs dst.dropLast = false
      · simp [copy_local_local, h1, h2]
      · by_cases h3 : isDirF fs src = true
        · cases hm : (mkdirOneOp dst fs).2 with
          | some e =>
            simp only [copy_local_local, if_neg h1, if_neg h2, if_pos h3, hm]
            refine ⟨?_, by simp⟩
            simp [applyEv]
          | none =>
            simp only [copy_local_local, if_neg h1, if_neg h2, if_pos h3, hm]
            obtain ⟨hfs, hok⟩ :=
              goChildren_replay (fun s d f => copy_local_local fuel s d f)
                (fun s d f => ih s d f) (childNames fs src) src dst
                (mkdirOneOp dst fs).1
            refine ⟨?_, fun h => ?_⟩
            · simpa [applyEv] using hfs
            · simp only [parentOkTrace, applyEv, Bool.true_and]
              exact hok h
        · cases hm : (mkdirParentsOp dst.dropLast fs).2 with
          | some e =>
            simp only [copy_local_local, if_neg h1, if_neg h2, if_neg h3, hm]
            refine ⟨?_, by simp⟩
            simp [applyEv]
          | none =>
            simp only [copy_local_local, if_neg h1, if_neg h2, if_neg h3, hm]
            refine ⟨?_, fun h => ?_⟩
            · simp [applyEv]
            · simp only [parentOkTrace, applyEv, Bool.true_and,
                Bool.and_true]
              simp [mkdirParentsOp_isDir dst.dropLast fs hm]

theorem copy_s3_local_dispatches :
    ∀ (objs : List RemoteObj) (srcKey : List Char) (dst : FPath) (fs : Fs),
      ∀ d ∈ (copy_s3_local objs srcKey dst fs).dispatches,
        d.2 = dst ++ pathComponents
          (stripLeadingSlashes (d.1.key.drop srcKey.length)) := by
  intro objs srcKey dst
  induction objs with
  | nil => intro fs d hd; simp [copy_s3_local] at hd
  | cons obj rest ih =>
    intro fs d hd
    simp only [copy_s3_local] at hd
    cases hm : (mkdirParentsOp
        (dst ++ pathComponents
          (stripLeadingSlashes (obj.key.drop srcKey.length))).dropLast fs).2 with
    | some e => simp [hm] at hd
    | none =>
      simp only [hm, List.mem_cons] at hd
      rcases hd with hd | hd
      · rw [hd]
      · exact ih _ d hd

theorem copyWalk_spec :
    ∀ (t : FsTree) (key : List Char),
      (copyWalk t key).2 = treeSize t ∧
      ((copyWalk t key).1.map Prod.snd).sum = treeSize t := by
  have hstrong : ∀ (n : Nat) (t : FsTree), sizeOf t ≤ n → ∀ key,
      (copyWalk t key).2 = treeSize t ∧
      ((copyWalk t key).1.map Prod.snd).sum = treeSize t := by
    intro n
    induction n with
    | zero => intro t h; cases t <;> simp at h
    | succ n ih =>
      intro t h key
      match t with
      | .file nm sz => exact ⟨rfl, by simp [copyWalk, treeSize]⟩
      | .dir nm cs =>
        have hlist : ∀ (l : List FsTree), (∀ u ∈ l, sizeOf u ≤ n) → ∀ k,
            (copyWalkList l k).2 = forestSize l ∧
            ((copyWalkList l k).1.map Prod.snd).sum = forestSize l := by
          intro l
          induction l with
          | nil => intro _ k; exact ⟨rfl, by simp [copyWalkList, forestSize]⟩
          | cons x xs ihl =>
            intro hmem k
            obtain ⟨hx2, hx1⟩ := ih x (hmem x (by simp)) (osPathJoin k x.nodeName)
            obtain ⟨hxs2, hxs1⟩ :=
              ihl (fun u hu => hmem u (by simp [hu])) k
            constructor
            · simp only [copyWalkList, forestSize, hx2, hxs2]
            · simp only [copyWalkList, forestSize, List.map_append,
                List.sum_append, hx1, hxs1]
        refine ⟨?_, ?_⟩ <;>
        · simp only [copyWalk, treeSize]
          have hsz : ∀ u ∈ cs, sizeOf u ≤ n := by
            intro u hu
            have h1 : sizeOf u < sizeOf cs := List.sizeOf_lt_of_mem hu
            have h2 : sizeOf cs < sizeOf (FsTree.dir nm cs) := by simp
            omega
          first
          | exact (hlist cs hsz key).1
          | exact (hlist cs hsz key).2
  intro t key
  exact hstrong (sizeOf t) t (le_refl _) key

theorem copy_s3_local_total :
    ∀ (objs : List RemoteObj) (srcKey : List Char) (dst : FPath) (fs : Fs),
      (copy_s3_local objs srcKey dst fs).err = none →
      (copy_s3_local objs srcKey dst fs).total =
        (objs.map RemoteObj.size).sum := by
  intro objs srcKey dst
  induction objs with
  | nil => intro fs _; rfl
  | cons obj rest ih =>
    intro fs herr
    simp only [copy_s3_local] at herr ⊢
    cases hm : (mkdirParentsOp
        (dst ++ pathComponents
          (stripLeadingSlashes (obj.key.drop srcKey.length))).dropLast fs).2 with
    | some e => simp [hm] at herr
    | none =>
      simp only [hm] at herr ⊢
      simp [ih _ herr]

/-- Counterexample to claim C3 as stated: for the source tree
`d/{a: 10 bytes, b: 20 bytes}`, both `upload_object` dispatches happen
during the `_copy` walk, before `total_bytes` is bound — the trace
starts with an upload, so the total is not fully computed before the
first upload is dispatched. -/
theorem copy_local_s3_upload_before_total_cex :
    (copy_local_s3
      (.dir "d".toList [.file "a".toList 10, .file "b".toList 20])
      "dst".toList [("dst/a".toList, 10), ("dst/b".toList, 20)]).1 =
      [S3Ev.upload "dst/a".toList 10, S3Ev.upload "dst/b".toList 20,
       S3Ev.totalComputed 30, S3Ev.awaitOp "dst/a".toList 10,
       S3Ev.awaitOp "dst/b".toList 20] ∧
    noUploadBeforeTotal (copy_local_s3
      (.dir "d".toList [.file "a".toList 10, .file "b".toList 20])
      "dst".toList [("dst/a".toList, 10), ("dst/b".toList, 20)]).1 = false :=
  ⟨rfl, rfl⟩

/-- Claim C3, amended: `copy_local_s3` dispatches every upload during
the enumeration walk, *before* the total byte count is bound; the total
is fully computed before any upload completion is awaited (the progress
loop), and equals the sum of the enumerated unit sizes. -/
theorem copy_local_s3_total_before_await (src : FsTree) (dstKey : List Char)
    (co : List (List Char × Nat))
    (hco : co.Perm (copyWalk src dstKey).1) :
    ∃ pre post,
      (copy_local_s3 src dstKey co).1 =
        pre ++ S3Ev.totalComputed (copy_local_s3 src dstKey co).2 :: post ∧
      pre = (copyWalk src dstKey).1.map (fun u => S3Ev.upload u.1 u.2) ∧
      (∀ e ∈ post, ∃ k s, e = S3Ev.awaitOp k s) ∧
      post.length = pre.length ∧
      (copy_local_s3 src dstKey co).2 = treeSize src := by
  refine ⟨(copyWalk src dstKey).1.map (fun u => S3Ev.upload u.1 u.2),
    co.map (fun u => S3Ev.awaitOp u.1 u.2), ?_, rfl, ?_, ?_, ?_⟩
  · simp [copy_local_s3]
  · intro e he
    obtain ⟨u, _, hu⟩ := List.mem_map.mp he
    exact ⟨u.1, u.2, hu.symm⟩
  · simp [hco.length_eq]
  · exact (copyWalk_spec src dstKey).1

/-- Witness for the amended claim C3 at the tree
`d/{a: 10 bytes, b: 20 bytes}` with completion order `[b, a]`. -/
theorem copy_local_s3_total_before_await_witness :
    ∃ pre post,
      (copy_local_s3
        (.dir "d".toList [.file "a".toList 10, .file "b".toList 20])
        "dst".toList [("dst/b".toList, 20), ("dst/a".toList, 10)]).1 =
        pre ++ S3Ev.totalComputed (copy_local_s3
          (.dir "d".toList [.file "a".toList 10, .file "b".toList 20])
          "dst".toList [("dst/b".toList, 20), ("dst/a".toList, 10)]).2 ::
            post ∧
      pre = (copyWalk
        (.dir "d".toList [.file "a".toList 10, .file "b".toList 20])
        "dst".toList).1.map (fun u => S3Ev.upload u.1 u.2) ∧
      (∀ e ∈ post, ∃ k s, e = S3Ev.awaitOp k s) ∧
      post.length = pre.length ∧
      (copy_local_s3
        (.dir "d".toList [.file "a".toList 10, .file "b".toList 20])
        "dst".toList [("dst/b".toList, 20), ("dst/a".toList, 10)]).2 =
        treeSize (.dir "d".toList [.file "a".toList 10, .file "b".toList 20]) :=
  copy_local_s3_total_before_await _ _ _ (by decide)

/-- Claim C5: the total byte count computed by `copy_local_s3` equals
the exact sum of the on-disk file sizes over the enumerated tree (and
equals the sum over the enumerated upload units), and the total
computed by `copy_s3_local`'s enumeration equals the sum of the listed
objects' size fields. -/
theorem enumerate_total_eq_sum :
    (∀ (t : FsTree) (key : List Char),
      (copyWalk t key).2 = treeSize t ∧
      ((copyWalk t key).1.map Prod.snd).sum = treeSize t) ∧
    (∀ (objs : List RemoteObj) (srcKey : List Char) (dst : FPath) (fs : Fs),
      (copy_s3_local objs srcKey dst fs).err = none →
      (copy_s3_local objs srcKey dst fs).total =
        (objs.map RemoteObj.size).sum) :=
  ⟨copyWalk_spec, copy_s3_local_total⟩

/-- Witness for claim C5 at the tree `d/{a: 10 bytes, b: 20 bytes}` and
a two-object listing. -/
theorem enumerate_total_eq_sum_witness :
    ((copyWalk (.dir "d".toList [.file "a".toList 10, .file "b".toList 20])
        "dst".toList).2 =
      treeSize (.dir "d".toList [.file "a".toList 10, .file "b".toList 20])) ∧
    (copy_s3_local [⟨"pre/a".toList, 5⟩, ⟨"pre/b".toList, 7⟩] "pre".toList
        ["d".toList] [(["d".toList], .edir)]).total =
      ([⟨"pre/a".toList, 5⟩, ⟨"pre/b".toList, 7⟩].map RemoteObj.size).sum :=
  ⟨(enumerate_total_eq_sum.1 _ _).1,
   enumerate_total_eq_sum.2 _ _ _ _ (by rfl)⟩

/-- Claim C6: `parse_path` maps `s3://bucket/prefix/key` to the s3
triple (bucket `bucket`, key `prefix/key`), maps
`https://acct.blob.core.windows.net/container/blob` to the azure tuple
(account `acct`, container `container`, blob path `blob`), and, when
`./data` is a plausible local path, maps `./data` to the local variant
carrying `./data`. -/
theorem parse_path_examples (fs : FsView) :
    parse_path fs "s3://bucket/prefix/key".toList =
      .ok (.s3 "bucket".toList "prefix/key".toList) ∧
    parse_path fs "https://acct.blob.core.windows.net/container/blob".toList =
      .ok (.azure "acct".toList "container".toList "blob".toList) ∧
    (is_plausible_local_path fs "./data".toList = true →
      parse_path fs "./data".toList = .ok (.localPath "./data".toList)) := by
  refine ⟨rfl, rfl, fun h => ?_⟩
  have hstep : parse_path fs "./data".toList =
      if is_plausible_local_path fs "./data".toList then
        .ok (.localPath "./data".toList)
      else .ok (.raw "./data".toList) := rfl
  rw [hstep, if_pos h]

/-- Witness for claim C6 at a concrete filesystem view on which
`./data` is plausible (its parent exists). -/
theorem parse_path_examples_witness :
    is_plausible_local_path
      ⟨fun _ => false, fun _ => false, fun _ => true⟩ "./data".toList = true ∧
    parse_path ⟨fun _ => false, fun _ => false, fun _ => true⟩
      "./data".toList = .ok (.localPath "./data".toList) :=
  ⟨rfl, (parse_path_examples
    ⟨fun _ => false, fun _ => false, fun _ => true⟩).2.2 rfl⟩

/-- Counterexample to claim C7 as stated: on a filesystem view where
`/nonexistent/deep/file` does not exist, is not a directory, and its
parent does not exist, `parse_path` hits the bare `return path`
fall-through and hands back the raw string, not the local variant
`("local", None, path)`. -/
theorem parse_path_implausible_raw_cex :
    parse_path ⟨fun _ => false, fun _ => false, fun _ => false⟩
      "/nonexistent/deep/file".toList =
      .ok (.raw "/nonexistent/deep/file".toList) ∧
    parse_path ⟨fun _ => false, fun _ => false, fun _ => false⟩
      "/nonexistent/deep/file".toList ≠
      .ok (.localPath "/nonexistent/deep/file".toList) := by
  refine ⟨rfl, fun h => ?_⟩
  rw [show parse_path ⟨fun _ => false, fun _ => false, fun _ => false⟩
      "/nonexistent/deep/file".toList =
      .ok (.raw "/nonexistent/deep/file".toList) from rfl] at h
  simp at h

/-- Claim C7, amended: every path string that does not start with a
recognized remote-scheme prefix is treated as local in the sense that
no error is raised, but only plausible local paths are returned as the
local variant `("local", None, path)`; a non-plausible string falls
through and is returned verbatim (the bare `return path` at the end of
`parse_path`), with failure still deferred to actual access. -/
theorem parse_path_local_fallthrough (fs : FsView) (path : List Char)
    (h1 : "s3://".toList.isPrefixOf path = false)
    (h2 : "gs://".toList.isPrefixOf path = false)
    (h3 : (("https://".toList.isPrefixOf path ||
        "http://".toList.isPrefixOf path) &&
        hasSubstring path "blob.core.windows.net".toList) = false) :
    parse_path fs path =
      if is_plausible_local_path fs path then .ok (.localPath path)
      else .ok (.raw path) := by
  unfold parse_path
  rw [h1, h2, h3]
  simp

/-- Witness for the amended claim C7: a plausible and a non-plausible
local path, neither carrying a remote scheme. -/
theorem parse_path_local_fallthrough_witness :
    parse_path ⟨fun _ => false, fun _ => false, fun _ => false⟩
      "/nope/deep/x".toList =
      (if is_plausible_local_path
          ⟨fun _ => false, fun _ => false, fun _ => false⟩ "/nope/deep/x".toList
        then .ok (.localPath "/nope/deep/x".toList)
        else .ok (.raw "/nope/deep/x".toList)) ∧
    parse_path ⟨fun _ => true, fun _ => true, fun _ => true⟩
      "./data".toList =
      (if is_plausible_local_path
          ⟨fun _ => true, fun _ => true, fun _ => true⟩ "./data".toList
        then .ok (.localPath "./data".toList)
        else .ok (.raw "./data".toList)) :=
  ⟨parse_path_local_fallthrough _ _ rfl rfl rfl,
   parse_path_local_fallthrough _ _ rfl rfl rfl⟩

/-- Claim C8: for every malformed remote URI — an `s3://` or `gs://`
string with no `/` separator after the bucket segment, or an http(s)
`blob.core.windows.net` URL that does not match the
account/container/blob pattern — `parse_path` raises an error (the
`ValueError` realizing the spec's `InvalidPathError`) rather than
returning a location. -/
theorem parse_path_malformed_error (fs : FsView) (path : List Char) :
    ("s3://".toList.isPrefixOf path = true →
      (path.drop 5).contains '/' = false →
      parse_path fs path = .error .unpackValueError) ∧
    ("gs://".toList.isPrefixOf path = true →
      (path.drop 5).contains '/' = false →
      parse_path fs path = .error .unpackValueError) ∧
    (("https://".toList.isPrefixOf path ||
        "http://".toList.isPrefixOf path) = true →
      hasSubstring path "blob.core.windows.net".toList = true →
      azureMatch path = none →
      parse_path fs path = .error (.invalidAzurePath path)) := by
  refine ⟨fun hs3 hnoslash => ?_, fun hgs hnoslash => ?_,
    fun hscheme hsub hnomatch => ?_⟩
  · unfold parse_path
    rw [hs3, splitOnce_eq_none_of_no_slash _ hnoslash]
    simp
  · obtain ⟨t, ht, _⟩ := isPrefixOf_cons_iff.mp hgs
    have hs3 : "s3://".toList.isPrefixOf path = false := by
      rw [ht]; rfl
    unfold parse_path
    rw [hs3, hgs, splitOnce_eq_none_of_no_slash _ hnoslash]
    simp
  · have hh : ∃ t, path = 'h' :: t := by
      rcases Bool.or_eq_true_iff.mp hscheme with hp | hp
      · obtain ⟨t, ht, _⟩ := isPrefixOf_cons_iff.mp hp; exact ⟨t, ht⟩
      · obtain ⟨t, ht, _⟩ := isPrefixOf_cons_iff.mp hp; exact ⟨t, ht⟩
    obtain ⟨t, ht⟩ := hh
    have hs3 : "s3://".toList.isPrefixOf path = false := by rw [ht]; rfl
    have hgs : "gs://".toList.isPrefixOf path = false := by rw [ht]; rfl
    unfold parse_path
    rw [hs3, hgs, hscheme, hsub, hnomatch]
    simp

/-- Witness for claim C8 at three concrete malformed URIs: an `s3://`
and a `gs://` string with no separator after the bucket, and an Azure
blob URL with no account segment before the hostname. -/
theorem parse_path_malformed_error_witness :
    parse_path ⟨fun _ => true, fun _ => false, fun _ => true⟩
      "s3://bucketonly".toList = .error .unpackValueError ∧
    parse_path ⟨fun _ => true, fun _ => false, fun _ => true⟩
      "gs://bucketonly".toList = .error .unpackValueError ∧
    parse_path ⟨fun _ => true, fun _ => false, fun _ => true⟩
      "https://blob.core.windows.net/c/b".toList =
      .error (.invalidAzurePath "https://blob.core.windows.net/c/b".toList) :=
  ⟨(parse_path_malformed_error _ _).1 rfl rfl,
   (parse_path_malformed_error _ _).2.1 rfl rfl,
   (parse_path_malformed_error _ _).2.2 rfl rfl rfl⟩

/-- Claim C9: a missing local source path raises `FileNotFoundError`
in `ls_local` and `copy_local_local`, while `copy_s3_local` over a
prefix whose listing is empty completes without raising, with total
bytes 0 and no operations; and every dispatched download's destination
path is the destination directory joined with the object's key
stripped of the source prefix and all leading `/` separators. -/
theorem enumeration_failure_characterization :
    (∀ (fs : Fs) (p : FPath), pathExistsF fs p = false →
      ls_local fs p = .error (.fileNotFound p)) ∧
    (∀ (fuel : Nat) (src dst : FPath) (fs : Fs), 0 < fuel →
      pathExistsF fs src = false →
      copy_local_local fuel src dst fs =
        ⟨fs, [], some (.fileNotFound src)⟩) ∧
    (∀ (srcKey : List Char) (dst : FPath) (fs : Fs),
      copy_s3_local [] srcKey dst fs = ⟨fs, [], 0, none⟩) ∧
    (∀ (objs : List RemoteObj) (srcKey : List Char) (dst : FPath) (fs : Fs),
      ∀ d ∈ (copy_s3_local objs srcKey dst fs).dispatches,
        d.2 = dst ++ pathComponents
          (stripLeadingSlashes (d.1.key.drop srcKey.length))) := by
  refine ⟨fun fs p h => ?_, fun fuel src dst fs hf h => ?_,
    fun _ _ _ => rfl, copy_s3_local_dispatches⟩
  · simp [ls_local, h]
  · cases fuel with
    | zero => omega
    | succ f => simp [copy_local_local, h]

/-- Witness for claim C9: a missing path, an empty listing, and one
listed object `pre/a/b` downloaded below `d`. -/
theorem enumeration_failure_characterization_witness :
    ls_local [] ["nope".toList] = .error (.fileNotFound ["nope".toList]) ∧
    copy_local_local 3 ["missing".toList] ["d".toList] [] =
      ⟨[], [], some (.fileNotFound ["missing".toList])⟩ ∧
    copy_s3_local [] "pre".toList ["d".toList] [(["d".toList], .edir)] =
      ⟨[(["d".toList], .edir)], [], 0, none⟩ ∧
    ((⟨"pre/a/b".toList, 5⟩ : RemoteObj),
        (["d".toList, "a".toList, "b".toList] : FPath)).2 =
      ["d".toList] ++ pathComponents
        (stripLeadingSlashes
          ((⟨"pre/a/b".toList, 5⟩ : RemoteObj).key.drop
            "pre".toList.length)) :=
  ⟨enumeration_failure_characterization.1 [] ["nope".toList] (by decide),
   enumeration_failure_characterization.2.1 3 ["missing".toList]
     ["d".toList] [] (by decide) (by decide),
   enumeration_failure_characterization.2.2.1 "pre".toList
     ["d".toList] [(["d".toList], .edir)],
   enumeration_failure_characterization.2.2.2
     [⟨"pre/a/b".toList, 5⟩] "pre".toList ["d".toList]
     [(["d".toList], .edir)] _ (by decide)⟩

/-- Claim C10: `copy_local_local` raises `FileNotFoundError` when the
destination's parent does not exist, performing this check together
with the source-existence check before any directory creation or file
copy (so on that error the filesystem is returned unchanged with an
empty operation trace); and in every run that completes without
raising, each copied file's parent directories exist (having been
created) at the moment the file is copied. -/
theorem copy_local_local_checks_first (fuel : Nat) (src dst : FPath)
    (fs : Fs) (hfuel : 0 < fuel) :
    (pathExistsF fs src = false →
      copy_local_local fuel src dst fs =
        ⟨fs, [], some (.fileNotFound src)⟩) ∧
    (pathExistsF fs src = true → pathExistsF fs dst.dropLast = false →
      copy_local_local fuel src dst fs =
        ⟨fs, [], some (.fileNotFound dst.dropLast)⟩) ∧
    ((copy_local_local fuel src dst fs).err = none →
      parentOkTrace fs (copy_local_local fuel src dst fs).evs = true) := by
  cases fuel with
  | zero => omega
  | succ f =>
    refine ⟨fun h1 => ?_, fun h1 h2 => ?_,
      (copy_local_local_replay (f + 1) src dst fs).2⟩
    · simp [copy_local_local, h1]
    · have h1' : ¬ (pathExistsF fs src = false) := by simp [h1]
      simp [copy_local_local, h1', h2]

/-- Witness for claim C10: a missing source, a missing destination
parent, and a successful recursive directory copy. -/
theorem copy_local_local_checks_first_witness :
    copy_local_local 3 ["missing".toList] ["d".toList, "x".toList] [] =
      ⟨[], [], some (.fileNotFound ["missing".toList])⟩ ∧
    copy_local_local 3 ["s".toList] ["d".toList, "x".toList]
        [(["s".toList], .efile 7)] =
      ⟨[(["s".toList], .efile 7)], [], some (.fileNotFound ["d".toList])⟩ ∧
    parentOkTrace
      [(["s".toList], .edir), (["s".toList, "a".toList], .efile 1)]
      (copy_local_local 5 ["s".toList] ["d".toList]
        [(["s".toList], .edir),
         (["s".toList, "a".toList], .efile 1)]).evs = true :=
  ⟨(copy_local_local_checks_first 3 ["missing".toList]
      ["d".toList, "x".toList] [] (by decide)).1 (by decide),
   (copy_local_local_checks_first 3 ["s".toList] ["d".toList, "x".toList]
      [(["s".toList], .efile 7)] (by decide)).2.1 (by decide) (by decide),
   (copy_local_local_checks_first 5 ["s".toList] ["d".toList]
      [(["s".toList], .edir), (["s".toList, "a".toList], .efile 1)]
      (by decide)).2.2 (by decide)⟩

theorem poolInv_step (cfg : PoolCfg) (st st' : PoolState) (ev : PEvent)
    (hinv : PoolInv cfg st) (hstep : poolStep cfg st ev = some st') :
    PoolInv cfg st' := by
  obtain ⟨hnd, hmem, hss, hsn⟩ := hinv
  cases ev with
  | submit i =>
    by_cases h : i = st.submitted ∧ i < cfg.numItems
    · rw [poolStep, if_pos h] at hstep
      cases hstep
      refine ⟨hnd, hmem, ?_, ?_⟩
      · show st.started ≤ i + 1
        omega
      · show i + 1 ≤ cfg.numItems
        omega
    · rw [poolStep, if_neg h] at hstep; simp at hstep
  | start i =>
    by_cases h : i = st.started ∧ i < st.submitted ∧
        st.started - st.finished.length < cfg.maxWorkers
    · rw [poolStep, if_pos h] at hstep
      cases hstep
      refine ⟨hnd, fun j hj => ?_, ?_, hsn⟩
      · show j < i + 1
        have := hmem j hj; omega
      · show i + 1 ≤ st.submitted
        omega
    · rw [poolStep, if_neg h] at hstep; simp at hstep
  | finish i =>
    by_cases h : i < st.started ∧ i ∉ st.finished
    · rw [poolStep, if_pos h] at hstep
      cases hstep
      refine ⟨?_, ?_, hss, hsn⟩
      · exact ((List.perm_append_singleton i st.finished).nodup_iff).mpr
          (List.nodup_cons.mpr ⟨h.2, hnd⟩)
      · intro j hj
        rcases List.mem_append.mp hj with hj | hj
        · exact hmem j hj
        · show j < st.started
          simp at hj; omega
    · rw [poolStep, if_neg h] at hstep; simp at hstep
  | observe i =>
    by_cases h : st.submitted = cfg.numItems ∧
        st.finished.get? st.observed.length = some i ∧
        (∀ j ∈ st.observed, cfg.fails j = false)
    · rw [poolStep, if_pos h] at hstep
      cases hstep
      exact ⟨hnd, hmem, hss, hsn⟩
    · rw [poolStep, if_neg h] at hstep; simp at hstep

theorem poolInv_run (cfg : PoolCfg) :
    ∀ (tr : List PEvent) (st st' : PoolState),
      runPool cfg st tr = some st' → PoolInv cfg st → PoolInv cfg st' := by
  intro tr
  induction tr with
  | nil => intro st st' h hinv; rw [runPool] at h; cases h; exact hinv
  | cons ev rest ih =>
    intro st st' h hinv
    rw [runPool] at h
    cases hstep : poolStep cfg st ev with
    | none => rw [hstep, Option.none_bind] at h; simp at h
    | some st1 =>
      rw [hstep, Option.some_bind] at h
      exact ih st1 st' h (poolInv_step cfg st st1 ev hinv hstep)

theorem runPool_append (cfg : PoolCfg) :
    ∀ (t1 t2 : List PEvent) (st : PoolState),
      runPool cfg st (t1 ++ t2) =
        (runPool cfg st t1).bind (fun st1 => runPool cfg st1 t2) := by
  intro t1
  induction t1 with
  | nil => intro t2 st; rfl
  | cons ev rest ih =>
    intro t2 st
    rw [List.cons_append, runPool, runPool]
    cases hstep : poolStep cfg st ev with
    | none => rw [Option.none_bind, Option.none_bind, Option.none_bind]
    | some st1 =>
      rw [Option.some_bind, Option.some_bind]
      exact ih t2 st1

theorem runPool_finishAll (cfg : PoolCfg) :
    ∀ (ms : List Nat) (st : PoolState), ms.Nodup →
      (∀ i ∈ ms, i < st.started ∧ i ∉ st.finished) →
      runPool cfg st (ms.map .finish) =
        some ⟨st.submitted, st.started, st.finished ++ ms, st.observed⟩ := by
  intro ms
  induction ms with
  | nil => intro st _ _; simp [runPool]
  | cons i ms ih =>
    intro st hnd hc
    have hi := hc i (by simp)
    have hstep : poolStep cfg st (.finish i) =
        some ⟨st.submitted, st.started, st.finished ++ [i], st.observed⟩ := by
      rw [poolStep, if_pos ⟨hi.1, hi.2⟩]
    have hrest := ih
      ⟨st.submitted, st.started, st.finished ++ [i], st.observed⟩
      (List.nodup_cons.mp hnd).2
      (fun j hj => by
        have hji := hc j (by simp [hj])
        refine ⟨hji.1, fun hjm => ?_⟩
        rcases List.mem_append.mp hjm with hm | hm
        · exact hji.2 hm
        · simp at hm
          exact (List.nodup_cons.mp hnd).1 (hm ▸ hj))
    rw [List.map_cons, runPool, hstep, Option.some_bind, hrest]
    simp

theorem runPool_submitAll (cfg : PoolCfg) :
    ∀ (k : Nat) (st : PoolState), st.submitted + k = cfg.numItems →
      runPool cfg st ((List.range' st.submitted k).map .submit) =
        some ⟨cfg.numItems, st.started, st.finished, st.observed⟩ := by
  intro k
  induction k with
  | zero =>
    intro st h
    rw [Nat.add_zero] at h
    rw [List.range', List.map_nil, runPool, ← h]
  | succ k ih =>
    intro st h
    have hstep : poolStep cfg st (.submit st.submitted) =
        some ⟨st.submitted + 1, st.started, st.finished, st.observed⟩ := by
      rw [poolStep, if_pos ⟨rfl, by omega⟩]
    have hrest := ih ⟨st.submitted + 1, st.started, st.finished, st.observed⟩
      (show st.submitted + 1 + k = cfg.numItems by omega)
    rw [List.range', List.map_cons, runPool, hstep, Option.some_bind]
    exact hrest

theorem runPool_pairSF (cfg : PoolCfg) (hw : 1 ≤ cfg.maxWorkers) :
    ∀ (k : Nat) (st : PoolState),
      st.submitted = cfg.numItems → st.started + k = cfg.numItems →
      st.finished.length = st.started → st.finished.Nodup →
      (∀ i ∈ st.finished, i < st.started) →
      ∃ st', runPool cfg st (pairSF st.started k) = some st' ∧
        st'.started = cfg.numItems ∧ st'.finished.length = cfg.numItems := by
  intro k
  induction k with
  | zero =>
    intro st h1 h2 h3 _ _
    exact ⟨st, by simp [pairSF, runPool], by omega, by omega⟩
  | succ k ih =>
    intro st h1 h2 h3 hnd hmem
    have hstep1 : poolStep cfg st (.start st.started) =
        some ⟨st.submitted, st.started + 1, st.finished, st.observed⟩ := by
      rw [poolStep, if_pos ⟨rfl, by omega, by omega⟩]
    have hstep2 : poolStep cfg
        ⟨st.submitted, st.started + 1, st.finished, st.observed⟩
        (.finish st.started) =
        some ⟨st.submitted, st.started + 1, st.finished ++ [st.started],
          st.observed⟩ := by
      rw [poolStep]
      exact if_pos ⟨Nat.lt_succ_self _,
        fun hm => absurd (hmem _ hm) (lt_irrefl _)⟩
    obtain ⟨st', hrun, hs1, hs2⟩ := ih
      ⟨st.submitted, st.started + 1, st.finished ++ [st.started],
        st.observed⟩ h1 (by simp; omega) (by simp [h3])
      (((List.perm_append_singleton _ _).nodup_iff).mpr
        (List.nodup_cons.mpr
          ⟨fun hm => absurd (hmem _ hm) (lt_irrefl _), hnd⟩))
      (fun i hi => by
        show i < st.started + 1
        rcases List.mem_append.mp hi with hm | hm
        · have := hmem i hm; omega
        · simp at hm; omega)
    refine ⟨st', ?_, hs1, hs2⟩
    rw [pairSF, runPool, hstep1, Option.some_bind, runPool, hstep2,
      Option.some_bind]
    simpa using hrun

theorem pool_state_drain (cfg : PoolCfg) (st : PoolState)
    (hw : 1 ≤ cfg.maxWorkers) (hinv : PoolInv cfg st) :
    ∃ ext st', runPool cfg st ext = some st' ∧
      st'.started = cfg.numItems ∧
      st'.finished.length = cfg.numItems := by
  obtain ⟨hnd, hmem, hss, hsn⟩ := hinv
  have hndms : ((List.range st.started).filter
      (fun i => ! decide (i ∈ st.finished))).Nodup :=
    (List.nodup_range _).filter _
  have hmemms : ∀ i ∈ (List.range st.started).filter
      (fun i => ! decide (i ∈ st.finished)),
      i < st.started ∧ i ∉ st.finished := by
    intro i hi
    have hmf := List.mem_filter.mp hi
    refine ⟨List.mem_range.mp hmf.1, ?_⟩
    simpa using hmf.2
  have hA := runPool_finishAll cfg
    ((List.range st.started).filter (fun i => ! decide (i ∈ st.finished)))
    st hndms hmemms
  have hlenA : (st.finished ++ (List.range st.started).filter
      (fun i => ! decide (i ∈ st.finished))).length = st.started := by
    have hperm : st.finished.Perm ((List.range st.started).filter
        (fun i => decide (i ∈ st.finished))) := by
      refine (List.perm_ext_iff_of_nodup hnd
        ((List.nodup_range _).filter _)).mpr (fun a => ?_)
      simp only [List.mem_filter, List.mem_range, decide_eq_true_eq]
      exact ⟨fun h => ⟨hmem a h, h⟩, fun h => h.2⟩
    have hsplit := List.length_eq_length_filter_add
      (l := List.range st.started) (fun i => decide (i ∈ st.finished))
    rw [List.length_append, hperm.length_eq]
    rw [List.length_range] at hsplit
    omega
  have hB := runPool_submitAll cfg (cfg.numItems - st.submitted)
    (⟨st.submitted, st.started,
      st.finished ++ (List.range st.started).filter
        (fun i => ! decide (i ∈ st.finished)), st.observed⟩ : PoolState)
    (show st.submitted + (cfg.numItems - st.submitted) = cfg.numItems by
      omega)
  have hndA : (st.finished ++ (List.range st.started).filter
      (fun i => ! decide (i ∈ st.finished))).Nodup := by
    rw [List.nodup_append]
    exact ⟨hnd, hndms, fun a ha hb => (hmemms a hb).2 ha⟩
  have hmemA : ∀ i ∈ st.finished ++ (List.range st.started).filter
      (fun i => ! decide (i ∈ st.finished)), i < st.started := by
    intro i hi
    rcases List.mem_append.mp hi with hm | hm
    · exact hmem i hm
    · exact (hmemms i hm).1
  obtain ⟨st', hC, hC1, hC2⟩ := runPool_pairSF cfg hw
    (cfg.numItems - st.started)
    (⟨cfg.numItems, st.started,
      st.finished ++ (List.range st.started).filter
        (fun i => ! decide (i ∈ st.finished)), st.observed⟩ : PoolState)
    rfl (show st.started + (cfg.numItems - st.started) = cfg.numItems by
      omega)
    hlenA hndA hmemA
  refine ⟨((List.range st.started).filter
      (fun i => ! decide (i ∈ st.finished))).map .finish ++
    ((List.range' st.submitted (cfg.numItems - st.submitted)).map .submit ++
      pairSF st.started (cfg.numItems - st.started)), st', ?_, hC1, hC2⟩
  rw [runPool_append, hA, Option.some_bind, runPool_append, hB,
    Option.some_bind]
  exact hC

/-- Counterexample to claim C4 as stated: with two items, one worker
and item 0's invocation failing, the trace `submit 0, submit 1,
start 0, finish 0, observe 0, start 1, finish 1` is a valid complete
pool execution — yet item 1's invocation is dispatched to the worker
(`start 1`, position 5) strictly after the executor observed the
failure of item 0 (`observe 0`, position 4): nothing stops dispatch
after a failure is observed. -/
theorem pool_dispatch_after_failure_cex :
    runPool ⟨2, 1, fun i => i == 0⟩ initPool
      [.submit 0, .submit 1, .start 0, .finish 0, .observe 0,
       .start 1, .finish 1] = some ⟨2, 2, [0, 1], [0]⟩ ∧
    [PEvent.submit 0, .submit 1, .start 0, .finish 0, .observe 0,
      .start 1, .finish 1].get? 4 = some (.observe 0) ∧
    (fun i => i == 0) 0 = true ∧
    [PEvent.submit 0, .submit 1, .start 0, .finish 0, .observe 0,
      .start 1, .finish 1].get? 5 = some (.start 1) := by
  refine ⟨by decide, rfl, rfl, rfl⟩

/-- Claim C4, amended: observing a failure never suppresses a
dispatch.  All items are submitted before the collection loop can
observe anything, and every valid pool execution — including any in
which a failure has already been observed — extends to a valid
execution in which every item's fn invocation has been dispatched to a
worker and has finished: the executor drains the entire queue and has
no lever to stop dispatching after the first observed failure. -/
theorem pool_drain_extension (cfg : PoolCfg) (tr : List PEvent)
    (st : PoolState) (hw : 1 ≤ cfg.maxWorkers)
    (hrun : runPool cfg initPool tr = some st) :
    ∃ ext st', runPool cfg initPool (tr ++ ext) = some st' ∧
      st'.started = cfg.numItems ∧
      st'.finished.length = cfg.numItems := by
  have hinv : PoolInv cfg st :=
    poolInv_run cfg tr initPool st hrun
      ⟨List.Pairwise.nil, by simp [initPool], by simp [initPool],
        by simp [initPool]⟩
  obtain ⟨ext, st', h1, h2, h3⟩ := pool_state_drain cfg st hw hinv
  exact ⟨ext, st', by rw [runPool_append, hrun, Option.some_bind]; exact h1,
    h2, h3⟩

/-- Witness for the amended claim C4: the valid prefix in which item
0's failure has just been observed, with one worker and two items,
still extends to a complete execution. -/
theorem pool_drain_extension_witness :
    ∃ ext st', runPool ⟨2, 1, fun i => i == 0⟩ initPool
      ([.submit 0, .submit 1, .start 0, .finish 0, .observe 0] ++ ext) =
        some st' ∧
      st'.started = (⟨2, 1, fun i => i == 0⟩ : PoolCfg).numItems ∧
      st'.finished.length = (⟨2, 1, fun i => i == 0⟩ : PoolCfg).numItems :=
  pool_drain_extension ⟨2, 1, fun i => i == 0⟩
    [.submit 0, .submit 1, .start 0, .finish 0, .observe 0]
    ⟨2, 1, [0], [0]⟩ (by decide) (by decide)

end Skylark
